import Mathlib

/-!
Shallow embedding of the hemoglobin DNA library (`src/lib.rs`) and proofs of
the specification claims about it.

Modelling conventions:
* `u64`/`usize` values are `Nat`; wrapping is written explicitly as `% 2 ^ 64`
  where the Rust operation wraps.
* Fallible Rust operations (panics: arithmetic underflow with overflow checks,
  out-of-bounds `Vec` indexing, remainder by zero, `Option::unwrap`) are
  modelled by `Option`, with `none` for the panic.
* A Rust `match` over integer or character literals is rendered as an
  equality chain.
-/

namespace Hemoglobin

/-- DNA base: the Rust `enum Base { A = 0, C = 1, G = 2, T = 3 }`. -/
inductive Base : Type where
  | A : Base
  | C : Base
  | G : Base
  | T : Base
deriving DecidableEq

/-- Numeric discriminant of a base, as read by the cast `base as u64`
(from the `repr(u8)` discriminants A=0, C=1, G=2, T=3). -/
def Base.code : Base → Nat
  | Base.A => 0
  | Base.C => 1
  | Base.G => 2
  | Base.T => 3

/-- Rust `Base::complement`. -/
def Base.complement : Base → Base
  | Base.A => Base.T
  | Base.T => Base.A
  | Base.C => Base.G
  | Base.G => Base.C

/-- Rust `Base::from_u64`: maps the numeric codes 0-3 back to bases,
anything else to `None`. -/
def Base.from_u64 (num : Nat) : Option Base :=
  if num = 0 then some Base.A
  else if num = 1 then some Base.C
  else if num = 2 then some Base.G
  else if num = 3 then some Base.T
  else none

/-- Loop body of `Sequence::new`: push a base for each of 'A', 'T', 'C',
'G' and keep the accumulator unchanged for every other character. -/
def new_step (result : List Base) (v : Char) : List Base :=
  if v = 'A' then result ++ [Base.A]
  else if v = 'T' then result ++ [Base.T]
  else if v = 'C' then result ++ [Base.C]
  else if v = 'G' then result ++ [Base.G]
  else result

/-- Rust `Sequence::new`: scan the characters of the input, push a base for
each of 'A', 'T', 'C', 'G' and skip every other character. A `Sequence` is
its `Vec<Base>` payload, modelled as `List Base`. -/
def Sequence.new (s : List Char) : List Base :=
  s.foldl new_step []

/-- Rust `Sequence::from_u64`: read `min length 32` two-bit fields out of
`num`, most significant field first. The Rust expression
`num << 2*i >> 62` on `u64` is `num * 2 ^ (2 * i) % 2 ^ 64 / 2 ^ 62`, and the
`.unwrap()` of `Base::from_u64` is modelled by the `Option` bind
(`none` = panic). -/
def Sequence.from_u64 (num : Nat) (length : Nat) : Option (List Base) :=
  (List.range (min length 32)).foldlM
    (fun result i =>
      (Base.from_u64 (num * 2 ^ (2 * i) % 2 ^ 64 / 2 ^ 62)).map
        (fun b => result ++ [b]))
    []

/-- Checked `usize` addition: `a + b` overflowing is a Rust arithmetic
error (a panic when overflow checks are on; in wrapping release mode the
wrapped guard leads the loop below to an out-of-bounds index panic),
modelled as `none`. -/
def usize_add (a b : Nat) : Option Nat :=
  if a + b < 2 ^ 64 then some (a + b) else none

/-- Rust `Sequence::subsequence_as_u64`: after the range guard, OR each
base's code into its 2-bit field, most significant field first. The result
is two-layered: the outer `Option` is the panic layer (`none` = panic: the
`usize` overflow of `start + length`, or an out-of-bounds `Vec` index), the
inner `Option` is the function's own `Option<u64>` (`some none` = the
returned `None`). The guard's `||` short-circuits as in the source, so
`start + length` is only evaluated when `length <= 32`. -/
def Sequence.subsequence_as_u64 (s : List Base) (start length : Nat) :
    Option (Option Nat) :=
  if 32 < length then some none
  else do
    let sum ← usize_add start length
    if s.length < sum then pure none
    else
      ((List.range length).foldlM
        (fun result i =>
          (s[start + i]?).map
            (fun b => result ||| (Base.code b <<< (62 - 2 * i))))
        0).map some

/-- Rust `Sequence::reverse_complement`: scan the indices in reverse order,
pushing each base's complement. The indices produced by the loop are always
in bounds, so indexing is rendered with `getD`. -/
def Sequence.reverse_complement (s : List Base) : List Base :=
  (List.range s.length).reverse.foldl
    (fun result i => result ++ [(s.getD i Base.A).complement])
    []

/-- Checked `usize` subtraction: `a - b` underflowing is a Rust arithmetic
error (a panic when overflow checks are on), modelled as `none`. -/
def usize_sub (a b : Nat) : Option Nat :=
  if b ≤ a then some (a - b) else none

/-- The haystack read `sequence.0[(i + j) % sequence.0.len()]` from
`find_kmers`: remainder by zero and out-of-bounds indexing are panics,
modelled as `none`. -/
def seq_index_mod (s : List Base) (n : Nat) : Option Base :=
  if s.length = 0 then none else s[n % s.length]?

/-- The scan loop of `find_kmers` over offsets `0..e`: at each offset
compare every kmer position (with no short-circuit, as in the source),
pushing the offset when all positions matched. -/
def find_kmers_scan (sequence kmer : List Base) (e : Nat) :
    Option (List Nat) :=
  (List.range e).foldlM
    (fun result i => do
      let m ← (List.range kmer.length).foldlM
        (fun matched j => do
          let b ← seq_index_mod sequence (i + j)
          let k ← kmer[j]?
          pure (matched && decide (b = k)))
        true
      pure (if m then result ++ [i] else result))
    []

/-- Rust `find_kmers`: scan offsets `0..end` where `end` is
`sequence.len() - kmer.len() + 1` (linear) or `sequence.len()` (circular). -/
def find_kmers (sequence kmer : List Base) (circular : Bool) :
    Option (List Nat) := do
  let e ←
    match circular with
    | false => (usize_sub sequence.length kmer.length).map (fun n => n + 1)
    | true => some sequence.length
  find_kmers_scan sequence kmer e

/-- The specification's match condition at offset `i`: every kmer position
`j` agrees with the haystack at `(i + j) % haystack.length`. -/
def kmer_match (hs p : List Base) (i : Nat) : Prop :=
  ∀ j < p.length, hs[(i + j) % hs.length]? = p[j]?

/-- Per-character mapping used to state the constructor claims: the four
valid uppercase letters to their bases, everything else to `none`. -/
def charToBase (v : Char) : Option Base :=
  if v = 'A' then some Base.A
  else if v = 'T' then some Base.T
  else if v = 'C' then some Base.C
  else if v = 'G' then some Base.G
  else none

/-! ### Generic loop lemmas -/

/-- A `foldlM` over `Option` whose body always succeeds is the corresponding
pure `foldl`. -/
lemma foldlM_eq_foldl {α β : Type} (body : β → α → Option β)
    (step : β → α → β) (l : List α)
    (h : ∀ acc, ∀ x ∈ l, body acc x = some (step acc x)) :
    ∀ a, l.foldlM body a = some (l.foldl step a) := by
  induction l with
  | nil => intro a; rfl
  | cons x t ih =>
    intro a
    rw [List.foldlM_cons, h a x (List.mem_cons_self x t)]
    show t.foldlM body (step a x) = _
    rw [List.foldl_cons]
    exact ih (fun acc y hy => h acc y (List.mem_cons_of_mem x hy)) (step a x)

/-- A fold that pushes `f x` for every element is `map`. -/
lemma foldl_push_eq_map {α β : Type} (f : α → β) (l : List α) :
    ∀ acc : List β, l.foldl (fun r x => r ++ [f x]) acc = acc ++ l.map f := by
  induction l with
  | nil => intro acc; simp
  | cons x t ih => intro acc; simp [List.foldl_cons, ih]

/-- A fold that pushes the elements satisfying `g` is `filter`. -/
lemma foldl_if_push_eq_filter (g : Nat → Bool) (l : List Nat) :
    ∀ acc : List Nat,
      l.foldl (fun r x => if g x then r ++ [x] else r) acc
        = acc ++ l.filter g := by
  induction l with
  | nil => intro acc; simp
  | cons x t ih =>
    intro acc
    rw [List.foldl_cons]
    by_cases hx : g x <;> simp [hx, ih, List.filter_cons]

/-- A fold of boolean conjunctions is `all`. -/
lemma foldl_and_eq_all (g : Nat → Bool) (l : List Nat) :
    ∀ b : Bool, l.foldl (fun m x => m && g x) b = (b && l.all g) := by
  induction l with
  | nil => intro b; simp
  | cons x t ih =>
    intro b
    rw [List.foldl_cons, ih, List.all_cons, Bool.and_assoc]

/-- Reading every position of a list back out of it, in order, gives the
list itself. -/
lemma map_getD_range {α : Type} (d : α) :
    ∀ s : List α, (List.range s.length).map (fun i => s.getD i d) = s := by
  intro s
  induction s with
  | nil => simp
  | cons a t ih =>
    rw [List.length_cons, List.range_succ_eq_map]
    simp only [List.map_cons, List.map_map]
    have hf : ((fun i => (a :: t).getD i d) ∘ Nat.succ) = fun i => t.getD i d := by
      funext i
      rfl
    rw [hf, ih]
    rfl

/-! ### Constructor and reverse-complement lemmas -/

/-- One `Sequence::new` loop step appends the decoded character, if any. -/
lemma new_step_eq (acc : List Base) (v : Char) :
    new_step acc v = acc ++ (charToBase v).toList := by
  unfold new_step charToBase
  split_ifs <;> simp

/-- The `Sequence::new` fold, from any accumulator, appends exactly the
decodable characters in order. -/
lemma new_foldl (cs : List Char) :
    ∀ acc : List Base,
      cs.foldl new_step acc = acc ++ cs.filterMap charToBase := by
  induction cs with
  | nil => intro acc; simp
  | cons v t ih =>
    intro acc
    rw [List.foldl_cons, new_step_eq, ih, List.filterMap_cons]
    rcases hv : charToBase v with _ | b <;> simp [hv]

/-- `charToBase` is `none` exactly off the four valid letters. -/
lemma charToBase_eq_none {v : Char}
    (h : ¬(v = 'A' ∨ v = 'T' ∨ v = 'C' ∨ v = 'G')) : charToBase v = none := by
  unfold charToBase
  split_ifs <;> tauto

/-- Dropping the invalid characters first does not change the result of
decoding. -/
lemma filterMap_charToBase_filter (cs : List Char) :
    (cs.filter
        (fun v => decide (v = 'A' ∨ v = 'T' ∨ v = 'C' ∨ v = 'G'))).filterMap
      charToBase = cs.filterMap charToBase := by
  induction cs with
  | nil => rfl
  | cons v t ih =>
    rw [List.filter_cons]
    by_cases h : v = 'A' ∨ v = 'T' ∨ v = 'C' ∨ v = 'G'
    · rw [if_pos (by simp [h]), List.filterMap_cons, List.filterMap_cons, ih]
    · rw [if_neg (by simp [h]), ih, List.filterMap_cons, charToBase_eq_none h]

/-- `reverse_complement` reads the list back-to-front, complementing. -/
lemma reverse_complement_eq (s : List Base) :
    Sequence.reverse_complement s = (s.map Base.complement).reverse := by
  unfold Sequence.reverse_complement
  rw [foldl_push_eq_map (fun i => (s.getD i Base.A).complement)
      (List.range s.length).reverse []]
  rw [List.map_reverse, List.nil_append]
  refine congrArg _ ?_
  have hf : (fun i => (s.getD i Base.A).complement)
      = Base.complement ∘ fun i => s.getD i Base.A := rfl
  rw [hf, ← List.map_map, map_getD_range]

/-- Complementing twice is the identity on each base. -/
lemma complement_complement (b : Base) :
    b.complement.complement = b := by cases b <;> rfl

/-! ### Claim theorems -/

/-- C1 (code bug): with `pattern.length > haystack.length` in linear mode,
`find_kmers` evaluates `haystack.length - pattern.length + 1`, whose unsigned
subtraction underflows; the embedding returns `none` (the Rust panic), not
the empty offset list that the specification requires. -/
theorem find_kmers_underflow_on_long_pattern :
    find_kmers [Base.A] [Base.A, Base.A, Base.A] false = none := by decide

/-- C8: `Sequence::new` appends exactly one base per valid uppercase letter,
in order (it is `filterMap charToBase`), equals the sequence built from the
valid letters alone, and maps the empty input to the empty sequence. -/
theorem new_skips_invalid_characters (cs : List Char) :
    Sequence.new cs = cs.filterMap charToBase ∧
    Sequence.new cs =
      Sequence.new
        (cs.filter (fun v => decide (v = 'A' ∨ v = 'T' ∨ v = 'C' ∨ v = 'G'))) ∧
    Sequence.new ([] : List Char) = [] := by
  refine ⟨new_foldl cs [], ?_, rfl⟩
  rw [Sequence.new, Sequence.new, new_foldl, new_foldl, List.nil_append,
    List.nil_append, filterMap_charToBase_filter]

/-- C9: `reverse_complement` is an involution. -/
theorem reverse_complement_involutive (s : List Base) :
    Sequence.reverse_complement (Sequence.reverse_complement s) = s := by
  rw [reverse_complement_eq, reverse_complement_eq, List.map_reverse,
    List.reverse_reverse, List.map_map]
  have hc : Base.complement ∘ Base.complement = id := by
    funext b
    exact complement_complement b
  rw [hc, List.map_id]

/-- C10: on an empty haystack and empty pattern in linear mode, `find_kmers`
returns exactly the single offset 0, with no panic (no out-of-bounds read,
no remainder by zero). -/
theorem find_kmers_empty_empty_linear :
    find_kmers [] [] false = some [0] := by decide

/-! ### The `find_kmers` scan characterization -/

/-- The boolean match test at offset `i`, as the scan computes it. -/
def kmer_match_b (hs p : List Base) (i : Nat) : Bool :=
  (List.range p.length).all
    (fun j => decide (hs[(i + j) % hs.length]? = p[j]?))

/-- The inner comparison loop of the scan never panics and computes the
boolean match test, provided the haystack is non-empty or the kmer is
empty. -/
lemma find_kmers_inner_eq (hs p : List Base) (i : Nat)
    (h : p.length = 0 ∨ 0 < hs.length) :
    ((List.range p.length).foldlM
        (fun matched j => do
          let b ← seq_index_mod hs (i + j)
          let k ← p[j]?
          pure (matched && decide (b = k)))
        true : Option Bool)
      = some (kmer_match_b hs p i) := by
  rcases h with h0 | hpos
  · rw [h0, kmer_match_b, h0]
    rfl
  · have hstep : ∀ (acc : Bool), ∀ j ∈ List.range p.length,
        ((do
          let b ← seq_index_mod hs (i + j)
          let k ← p[j]?
          pure (acc && decide (b = k))) : Option Bool)
        = some (acc && decide (hs[(i + j) % hs.length]? = p[j]?)) := by
      intro acc j hj
      rw [List.mem_range] at hj
      have hmod : (i + j) % hs.length < hs.length := Nat.mod_lt _ hpos
      rw [seq_index_mod, if_neg (by omega)]
      rw [List.getElem?_eq_getElem hmod, List.getElem?_eq_getElem hj]
      show some (acc && decide (hs[(i + j) % hs.length] = p[j])) = _
      have hd : decide (hs[(i + j) % hs.length] = p[j])
          = decide ((some hs[(i + j) % hs.length] : Option Base)
              = some p[j]) := by
        rw [decide_eq_decide]
        simp
      rw [hd]
    rw [foldlM_eq_foldl _
        (fun acc j => acc && decide (hs[(i + j) % hs.length]? = p[j]?)) _
        hstep true,
      foldl_and_eq_all, Bool.true_and, kmer_match_b]

/-- The scan over `0..e` never panics and filters the offsets by the match
test, provided the haystack is non-empty or the kmer is empty. -/
lemma find_kmers_scan_eq (hs p : List Base) (e : Nat)
    (h : p.length = 0 ∨ 0 < hs.length) :
    find_kmers_scan hs p e
      = some ((List.range e).filter (kmer_match_b hs p)) := by
  unfold find_kmers_scan
  have houter : ∀ (acc : List Nat), ∀ i ∈ List.range e,
      ((do
        let m ← (List.range p.length).foldlM
          (fun matched j => do
            let b ← seq_index_mod hs (i + j)
            let k ← p[j]?
            pure (matched && decide (b = k)))
          true
        pure (if m then acc ++ [i] else acc)) : Option (List Nat))
      = some (if kmer_match_b hs p i then acc ++ [i] else acc) := by
    intro acc i _
    rw [find_kmers_inner_eq hs p i h]
    rfl
  rw [foldlM_eq_foldl _
      (fun acc i => if kmer_match_b hs p i then acc ++ [i] else acc) _
      houter [],
    foldl_if_push_eq_filter, List.nil_append]

/-- The boolean match test agrees with the specification's condition. -/
lemma kmer_match_b_iff (hs p : List Base) (i : Nat) :
    kmer_match_b hs p i = true ↔ kmer_match hs p i := by
  rw [kmer_match_b, List.all_eq_true, kmer_match]
  constructor
  · intro h j hj
    exact decide_eq_true_eq.mp (h j (List.mem_range.mpr hj))
  · intro h j hj
    exact decide_eq_true_eq.mpr (h j (List.mem_range.mp hj))

/-- C2: under the mode's precondition, `find_kmers` returns exactly the
offsets in the mode's range whose every kmer position matches the haystack
modulo its length, in strictly increasing order. -/
theorem find_kmers_exact_offsets (hs p : List Base) (c : Bool)
    (h1 : c = false → p.length ≤ hs.length)
    (h2 : c = true → 0 < hs.length) :
    ∃ L, find_kmers hs p c = some L ∧
      (∀ i, i ∈ L ↔
        (i < cond c hs.length (hs.length - p.length + 1)
          ∧ kmer_match hs p i)) ∧
      L.Pairwise (· < ·) := by
  have hin : p.length = 0 ∨ 0 < hs.length := by
    cases c
    · have := h1 rfl
      omega
    · exact Or.inr (h2 rfl)
  have hmain : find_kmers hs p c
      = some ((List.range (cond c hs.length (hs.length - p.length + 1))).filter
          (kmer_match_b hs p)) := by
    cases c
    · show ((usize_sub hs.length p.length).map (fun n => n + 1)
          >>= find_kmers_scan hs p) = _
      rw [usize_sub, if_pos (h1 rfl)]
      show find_kmers_scan hs p (hs.length - p.length + 1) = _
      exact find_kmers_scan_eq hs p _ hin
    · show find_kmers_scan hs p hs.length = _
      exact find_kmers_scan_eq hs p _ hin
  refine ⟨_, hmain, ?_, ?_⟩
  · intro i
    rw [List.mem_filter, List.mem_range, kmer_match_b_iff]
  · exact (List.pairwise_lt_range _).sublist (List.filter_sublist _)

/-- C2 witness: the characterization applied at the doc-test input
`find_kmers("ATCGATCG", "ATCG", false)`. -/
theorem find_kmers_exact_offsets_witness :
    ∃ L, find_kmers
        [Base.A, Base.T, Base.C, Base.G, Base.A, Base.T, Base.C, Base.G]
        [Base.A, Base.T, Base.C, Base.G] false = some L ∧
      (∀ i, i ∈ L ↔
        (i < cond false
            (List.length
              [Base.A, Base.T, Base.C, Base.G, Base.A, Base.T, Base.C, Base.G])
            (List.length
              [Base.A, Base.T, Base.C, Base.G, Base.A, Base.T, Base.C, Base.G]
              - List.length [Base.A, Base.T, Base.C, Base.G] + 1)
          ∧ kmer_match
              [Base.A, Base.T, Base.C, Base.G, Base.A, Base.T, Base.C, Base.G]
              [Base.A, Base.T, Base.C, Base.G] i)) ∧
      L.Pairwise (· < ·) :=
  find_kmers_exact_offsets
    [Base.A, Base.T, Base.C, Base.G, Base.A, Base.T, Base.C, Base.G]
    [Base.A, Base.T, Base.C, Base.G] false (by decide) (by decide)

/-- C3: an empty pattern matches at every offset of the mode's range:
`0..=haystack.length` in linear mode, `0..=haystack.length - 1` in circular
mode on a non-empty haystack. -/
theorem find_kmers_empty_pattern (hs : List Base) (c : Bool)
    (h : c = true → 0 < hs.length) :
    find_kmers hs [] c
      = some (List.range (cond c hs.length (hs.length + 1))) := by
  have hin : ([] : List Base).length = 0 ∨ 0 < hs.length := Or.inl rfl
  have hfilter : ∀ e, (List.range e).filter (kmer_match_b hs []) =
      List.range e := by
    intro e
    apply List.filter_eq_self.mpr
    intro i _
    rfl
  cases c
  · show ((usize_sub hs.length 0).map (fun n => n + 1)
        >>= find_kmers_scan hs []) = _
    rw [usize_sub, if_pos (Nat.zero_le _)]
    show find_kmers_scan hs [] (hs.length - 0 + 1) = _
    rw [find_kmers_scan_eq hs [] _ hin, hfilter, Nat.sub_zero]
    rfl
  · show find_kmers_scan hs [] hs.length = _
    rw [find_kmers_scan_eq hs [] _ hin, hfilter]
    rfl

/-- C3 witness: the empty pattern on the haystack `AC`, in both modes. -/
theorem find_kmers_empty_pattern_witness :
    find_kmers [Base.A, Base.C] [] false
      = some (List.range
          (cond false (List.length [Base.A, Base.C])
            (List.length [Base.A, Base.C] + 1))) ∧
    find_kmers [Base.A, Base.C] [] true
      = some (List.range
          (cond true (List.length [Base.A, Base.C])
            (List.length [Base.A, Base.C] + 1))) :=
  ⟨find_kmers_empty_pattern [Base.A, Base.C] false (by decide),
    find_kmers_empty_pattern [Base.A, Base.C] true (by decide)⟩

/-! ### The bit-packing codec -/

/-- Every base code is a 2-bit value. -/
lemma code_lt_four (b : Base) : Base.code b < 4 := by
  cases b <;> decide

/-- `Base::from_u64` inverts `base as u64`. -/
lemma from_u64_code (b : Base) : Base.from_u64 (Base.code b) = some b := by
  cases b <;> rfl

/-- `Base::from_u64` succeeds on every 2-bit value. -/
lemma from_u64_lt_four {v : Nat} (h : v < 4) :
    Base.from_u64 v = some ((Base.from_u64 v).getD Base.A) := by
  unfold Base.from_u64
  split_ifs <;> first
    | rfl
    | omega

/-- The value computed by the packing loop of `subsequence_as_u64`,
as a pure fold. -/
def pack_word (s : List Base) (start n : Nat) : Nat :=
  (List.range n).foldl
    (fun result i =>
      result ||| (Base.code (s.getD (start + i) Base.A) <<< (62 - 2 * i)))
    0

/-- When the range guard passes and the `usize` addition `start + length`
does not overflow, `subsequence_as_u64` never panics and returns the packed
fold value. -/
lemma subsequence_eq_pack (s : List Base) (start n : Nat)
    (hg : ¬(32 < n ∨ s.length < start + n)) (h64 : start + n < 2 ^ 64) :
    Sequence.subsequence_as_u64 s start n
      = some (some (pack_word s start n)) := by
  push_neg at hg
  unfold Sequence.subsequence_as_u64
  rw [if_neg (by omega), usize_add, if_pos h64]
  show (if s.length < start + n then (pure none : Option (Option Nat))
    else ((List.range n).foldlM
        (fun result i =>
          (s[start + i]?).map
            (fun b => result ||| (Base.code b <<< (62 - 2 * i))))
        0).map some) = _
  rw [if_neg (by omega)]
  have hstep : ∀ acc, ∀ i ∈ List.range n,
      (s[start + i]?).map
        (fun b => acc ||| (Base.code b <<< (62 - 2 * i)))
      = some (acc ||| (Base.code (s.getD (start + i) Base.A)
          <<< (62 - 2 * i))) := by
    intro acc i hi
    rw [List.mem_range] at hi
    have hidx : start + i < s.length := by omega
    rw [List.getElem?_eq_getElem hidx]
    show some (acc ||| (Base.code s[start + i] <<< (62 - 2 * i))) = _
    rw [List.getD_eq_getElem s Base.A hidx]
  rw [foldlM_eq_foldl _
    (fun acc i =>
      acc ||| (Base.code (s.getD (start + i) Base.A) <<< (62 - 2 * i)))
    _ hstep 0]
  rfl

/-- Adding bits strictly below the alignment of a word does not change any
quotient by a larger power of two. -/
lemma add_low_div (Ap B m k : Nat) (hB : B < 2 ^ m) (hmk : m ≤ k) :
    (2 ^ m * Ap + B) / 2 ^ k = 2 ^ m * Ap / 2 ^ k := by
  rw [show k = m + (k - m) by omega, pow_add, ← Nat.div_div_eq_div_mul,
    ← Nat.div_div_eq_div_mul]
  congr 1
  rw [Nat.mul_add_div (Nat.two_pow_pos m), Nat.div_eq_of_lt hB, Nat.add_zero,
    Nat.mul_div_cancel_left _ (Nat.two_pow_pos m)]

/-- Invariant of the packing fold: after `n` fields the word is aligned to
`2 ^ (64 - 2 * n)`, the quotient is an `n`-digit base-4 number, and each
2-bit field holds the code of the corresponding base, most significant field
first. -/
lemma pack_word_spec (s : List Base) (start : Nat) :
    ∀ n, n ≤ 32 → start + n ≤ s.length →
      ∃ T, pack_word s start n = T * 2 ^ (64 - 2 * n) ∧ T < 4 ^ n ∧
        (∀ i < n, pack_word s start n / 2 ^ (62 - 2 * i) % 4
          = Base.code (s.getD (start + i) Base.A)) := by
  intro n
  induction n with
  | zero =>
    intro _ _
    exact ⟨0, by simp [pack_word], by norm_num, fun i hi => absurd hi (by omega)⟩
  | succ n ih =>
    intro hn32 hlen
    obtain ⟨T, hT, hTlt, hfields⟩ := ih (by omega) (by omega)
    have hstep : pack_word s start (n + 1)
        = pack_word s start n
          ||| (Base.code (s.getD (start + n) Base.A) <<< (62 - 2 * n)) := by
      unfold pack_word
      rw [List.range_succ, List.foldl_append]
      rfl
    have hc4 : Base.code (s.getD (start + n) Base.A) < 4 := code_lt_four _
    have hpow : (2 : Nat) ^ (64 - 2 * n) = 2 ^ (62 - 2 * n) * 4 := by
      rw [show 64 - 2 * n = 62 - 2 * n + 2 by omega, pow_add]
      norm_num
    have hlow : Base.code (s.getD (start + n) Base.A) <<< (62 - 2 * n)
        = Base.code (s.getD (start + n) Base.A) * 2 ^ (62 - 2 * n) :=
      Nat.shiftLeft_eq _ _
    have hlt : Base.code (s.getD (start + n) Base.A) * 2 ^ (62 - 2 * n)
        < 2 ^ (64 - 2 * n) := by
      calc Base.code (s.getD (start + n) Base.A) * 2 ^ (62 - 2 * n)
          < 4 * 2 ^ (62 - 2 * n) :=
            mul_lt_mul_of_pos_right hc4 (Nat.two_pow_pos _)
        _ = 2 ^ (62 - 2 * n) * 4 := Nat.mul_comm _ _
        _ = 2 ^ (64 - 2 * n) := hpow.symm
    have hadd : pack_word s start (n + 1)
        = 2 ^ (64 - 2 * n) * T
          + Base.code (s.getD (start + n) Base.A) * 2 ^ (62 - 2 * n) := by
      rw [hstep, hT, hlow, Nat.mul_comm T (2 ^ (64 - 2 * n))]
      exact (Nat.mul_add_lt_is_or hlt T).symm
    refine ⟨T * 4 + Base.code (s.getD (start + n) Base.A), ?_, ?_, ?_⟩
    · rw [hadd, show 64 - 2 * (n + 1) = 62 - 2 * n by omega, hpow]
      ring
    · rw [pow_succ]
      omega
    · intro i hi
      rcases Nat.lt_succ_iff_lt_or_eq.mp hi with hilt | hieq
      · rw [hadd,
          add_low_div T (Base.code (s.getD (start + n) Base.A)
            * 2 ^ (62 - 2 * n)) (64 - 2 * n) (62 - 2 * i) hlt (by omega),
          Nat.mul_comm, ← hT]
        exact hfields i hilt
      · subst hieq
        rw [hadd, hpow, Nat.mul_assoc,
          Nat.mul_add_div (Nat.two_pow_pos _),
          Nat.mul_div_cancel _ (Nat.two_pow_pos _),
          Nat.mul_add_mod, Nat.mod_eq_of_lt hc4]

/-- The `u64` field read of `Sequence::from_u64` extracts the 2-bit field at
bit offset `62 - 2 * i`. -/
lemma u64_field_extract (w i : Nat) (hi : i ≤ 31) :
    w * 2 ^ (2 * i) % 2 ^ 64 / 2 ^ 62 = w / 2 ^ (62 - 2 * i) % 4 := by
  have h1 : (2 : Nat) ^ 64 = 2 ^ (64 - 2 * i) * 2 ^ (2 * i) := by
    rw [← pow_add]
    congr 1
    omega
  have h2 : (2 : Nat) ^ 62 = 2 ^ (62 - 2 * i) * 2 ^ (2 * i) := by
    rw [← pow_add]
    congr 1
    omega
  rw [h1, Nat.mul_mod_mul_right, h2,
    Nat.mul_div_mul_right _ _ (Nat.two_pow_pos (2 * i)),
    show (2 : Nat) ^ (64 - 2 * i) = 2 ^ (62 - 2 * i) * 4 by
      rw [show 64 - 2 * i = 62 - 2 * i + 2 by omega, pow_add]
      norm_num]
  exact Nat.mod_mul_right_div_self w _ _

/-- C4: packing a whole sequence of length at most 32 and unpacking it at the
same length round-trips to the original sequence, with no panic on either
side. -/
theorem pack_unpack_roundtrip (s : List Base) (h : s.length ≤ 32) :
    ∃ w, Sequence.subsequence_as_u64 s 0 s.length = some (some w) ∧
      Sequence.from_u64 w s.length = some s := by
  obtain ⟨T, hT, hTlt, hfields⟩ := pack_word_spec s 0 s.length h (by omega)
  refine ⟨pack_word s 0 s.length,
    subsequence_eq_pack s 0 s.length (by omega) (by omega), ?_⟩
  have hstep : ∀ acc, ∀ i ∈ List.range s.length,
      (Base.from_u64
          (pack_word s 0 s.length * 2 ^ (2 * i) % 2 ^ 64 / 2 ^ 62)).map
        (fun b => acc ++ [b])
      = some (acc ++ [s.getD i Base.A]) := by
    intro acc i hi
    rw [List.mem_range] at hi
    rw [u64_field_extract _ i (by omega), hfields i hi, Nat.zero_add,
      from_u64_code]
    rfl
  unfold Sequence.from_u64
  rw [min_eq_left h,
    foldlM_eq_foldl _ (fun acc i => acc ++ [s.getD i Base.A]) _ hstep [],
    foldl_push_eq_map, List.nil_append, map_getD_range]

/-- C4 witness: the round-trip applied to the sequence `TACG`. -/
theorem pack_unpack_roundtrip_witness :
    ∃ w, Sequence.subsequence_as_u64 [Base.T, Base.A, Base.C, Base.G] 0
        (List.length [Base.T, Base.A, Base.C, Base.G]) = some (some w) ∧
      Sequence.from_u64 w (List.length [Base.T, Base.A, Base.C, Base.G])
        = some [Base.T, Base.A, Base.C, Base.G] :=
  pack_unpack_roundtrip [Base.T, Base.A, Base.C, Base.G] (by decide)

/-- C5: `subsequence_as_u64` packs most-significant-first with the code
table A=0, C=1, G=2, T=3 — the base at `start` occupies the top 2 bits, each
subsequent base the next lower 2-bit field, all lower bits are zero — and on
the sequence `TACGATCTAGT` with start 4, length 7 the packed word is
0x372C000000000000. The first hypothesis is the `usize` typing bound on the
`Vec` length that every Rust sequence satisfies. -/
theorem subsequence_msb_first_packing :
    (∀ (s : List Base) (start n : Nat), s.length < 2 ^ 64 → n ≤ 32 →
      start + n ≤ s.length →
      ∃ w, Sequence.subsequence_as_u64 s start n = some (some w) ∧
        (∀ i < n, w / 2 ^ (62 - 2 * i) % 4
          = Base.code (s.getD (start + i) Base.A)) ∧
        w % 2 ^ (64 - 2 * n) = 0) ∧
    Sequence.subsequence_as_u64
      (Sequence.new [ 'T', 'A', 'C', 'G', 'A', 'T', 'C', 'T', 'A', 'G', 'T'])
      4 7 = some (some 0x372C000000000000) := by
  constructor
  · intro s start n hs64 h1 h2
    obtain ⟨T, hT, hTlt, hfields⟩ := pack_word_spec s start n h1 h2
    refine ⟨pack_word s start n,
      subsequence_eq_pack s start n (by omega) (by omega), hfields, ?_⟩
    rw [hT]
    exact Nat.mul_mod_left _ _
  · decide

/-- C5 witness: the field characterization applied to the sequence `TA`
packed whole. -/
theorem subsequence_msb_first_packing_witness :
    ∃ w, Sequence.subsequence_as_u64 [Base.T, Base.A] 0 2 = some (some w) ∧
      (∀ i < 2, w / 2 ^ (62 - 2 * i) % 4
        = Base.code ([Base.T, Base.A].getD (0 + i) Base.A)) ∧
      w % 2 ^ (64 - 2 * 2) = 0 :=
  subsequence_msb_first_packing.1 [Base.T, Base.A] 0 2 (by decide) (by decide)
    (by decide)

/-- C6 counterexample: at `start = 2^64 - 1`, `length = 2` on the sequence
`A`, the claim's out-of-range condition holds, so the claim demands the
recoverable returned `None`; but the `usize` addition `start + length`
overflows and the code panics (the panic layer's `none`: an overflow panic
in debug, a wrapped guard followed by an out-of-bounds index panic in
release), not a returned `None`. -/
theorem subsequence_overflow_panics :
    (32 < 2 ∨ List.length [Base.A] < 2 ^ 64 - 1 + 2) ∧
    Sequence.subsequence_as_u64 [Base.A] (2 ^ 64 - 1) 2 = none := by
  constructor
  · right
    decide
  · decide

/-- C6 (amended): provided the `usize` addition `start + length` does not
overflow, `subsequence_as_u64` returns the recoverable `None` exactly when
`length > 32` or `start + length` exceeds the sequence length (and
otherwise never panics), and a zero-length request in bounds returns the
all-zero word. -/
theorem subsequence_none_iff (s : List Base) (start length : Nat)
    (h64 : start + length < 2 ^ 64) :
    (Sequence.subsequence_as_u64 s start length = some none ↔
      32 < length ∨ s.length < start + length) ∧
    (length = 0 → start ≤ s.length →
      Sequence.subsequence_as_u64 s start length = some (some 0)) := by
  constructor
  · constructor
    · intro hnone
      by_contra hg
      rw [subsequence_eq_pack s start length hg h64] at hnone
      exact Option.noConfusion (Option.some.inj hnone)
    · intro hg
      unfold Sequence.subsequence_as_u64
      by_cases h32 : 32 < length
      · rw [if_pos h32]
      · rw [if_neg h32, usize_add, if_pos h64]
        show (if s.length < start + length
          then (pure none : Option (Option Nat))
          else ((List.range length).foldlM
              (fun result i =>
                (s[start + i]?).map
                  (fun b => result ||| (Base.code b <<< (62 - 2 * i))))
              0).map some) = some none
        rw [if_pos (by omega)]
        rfl
  · intro h0 hs
    subst h0
    rw [subsequence_eq_pack s start 0 (by omega) (by omega)]
    rfl

/-- C6 witness: an out-of-bounds request on `A` returns `None`; a
zero-length request at the end of `A` returns the zero word. -/
theorem subsequence_none_iff_witness :
    (Sequence.subsequence_as_u64 [Base.A] 2 1 = some none ↔
      32 < 1 ∨ List.length [Base.A] < 2 + 1) ∧
    Sequence.subsequence_as_u64 [Base.A] 1 0 = some (some 0) :=
  ⟨(subsequence_none_iff [Base.A] 2 1 (by decide)).1,
    (subsequence_none_iff [Base.A] 1 0 (by decide)).2 rfl (by decide)⟩

/-- C7: `Sequence::from_u64` is total — it returns a sequence of exactly
`min length 32` bases for every word and requested length, and every
extracted 2-bit field value is below 4, so the inner `Base::from_u64`
unwrap never fails. -/
theorem from_u64_total_clamped (num length : Nat) :
    ∃ s, Sequence.from_u64 num length = some s ∧
      s.length = min length 32 ∧
      (∀ i, num * 2 ^ (2 * i) % 2 ^ 64 / 2 ^ 62 < 4) := by
  have hfield : ∀ i : Nat, num * 2 ^ (2 * i) % 2 ^ 64 / 2 ^ 62 < 4 := by
    intro i
    rw [Nat.div_lt_iff_lt_mul (by norm_num : (0 : Nat) < 2 ^ 62)]
    calc num * 2 ^ (2 * i) % 2 ^ 64 < 2 ^ 64 := Nat.mod_lt _ (by norm_num)
      _ = 4 * 2 ^ 62 := by norm_num
  have hstep : ∀ acc, ∀ i ∈ List.range (min length 32),
      (Base.from_u64 (num * 2 ^ (2 * i) % 2 ^ 64 / 2 ^ 62)).map
        (fun b => acc ++ [b])
      = some (acc ++
          [(Base.from_u64 (num * 2 ^ (2 * i) % 2 ^ 64 / 2 ^ 62)).getD
            Base.A]) := by
    intro acc i _
    rw [from_u64_lt_four (hfield i)]
    rfl
  refine ⟨(List.range (min length 32)).map
      (fun i =>
        (Base.from_u64 (num * 2 ^ (2 * i) % 2 ^ 64 / 2 ^ 62)).getD Base.A),
    ?_, ?_, hfield⟩
  · unfold Sequence.from_u64
    rw [foldlM_eq_foldl _
        (fun acc i => acc ++
          [(Base.from_u64 (num * 2 ^ (2 * i) % 2 ^ 64 / 2 ^ 62)).getD
            Base.A])
        _ hstep [],
      foldl_push_eq_map, List.nil_append]
  · rw [List.length_map, List.length_range]

end Hemoglobin
